import Mathlib

/-!
Verification development for the vertical-video clipping and subtitling
pipeline.  The definitions below are shallow embeddings of the Python
sources `vertical_video_clipper.py` and `vertical_video_subtitle.py`:
machine floats are modelled by exact rationals, Python `int(...)` by
truncation toward zero, Python `//` by flooring division, and frame
buffers by an abstract type acted on by abstract drawing operations.
Randomness (`random.randint`, `random.uniform`, `random.choice`) is
modelled by explicit oracle inputs constrained to the documented ranges.
-/

/-- Python `int(q)` on a nonnegative-or-negative rational: truncation
toward zero. -/
def pytrunc (q : ℚ) : ℤ :=
  if q < 0 then -(Int.floor (-q)) else Int.floor q

/-! ## Crop controller (`vertical_video_clipper.py`) -/

/-- A crop rectangle, as produced each frame by the crop controller
(`VerticalVideoClipper`): position and size in source pixel space. -/
structure CropRect where
  x : ℤ
  y : ℤ
  width : ℤ
  height : ℤ
  deriving DecidableEq

/-- `VerticalVideoClipper.__init__` lines 50-60: initial crop dimensions.
`crop_height = input_height`; `crop_width = int(crop_height * (output_width
/ output_height))`; if that exceeds `input_width`, degrade to
`crop_width = input_width`, `crop_height = int(crop_width * (output_height
/ output_width))`.  Returns `(crop_width, crop_height)`. -/
def initCropDims (iw ih ow oh : ℤ) : ℤ × ℤ :=
  let ch : ℤ := ih
  let cw : ℤ := pytrunc ((ch : ℚ) * ((ow : ℚ) / (oh : ℚ)))
  if cw > iw then
    (iw, pytrunc ((iw : ℚ) * ((oh : ℚ) / (ow : ℚ))))
  else
    (cw, ch)

/-- `VerticalVideoClipper.apply_zoom_effect` lines 158-172 (the crop
derivation after the state update): divide both crop dimensions by the
zoom factor, re-derive the width if the exact aspect ratio was lost to
truncation, and center the adjusted box inside the incoming one. -/
def applyZoomDerive (ow oh : ℤ) (zf : ℚ) (cx cy cw ch : ℤ) : CropRect :=
  let acw : ℤ := pytrunc ((cw : ℚ) / zf)
  let ach : ℤ := pytrunc ((ch : ℚ) / zf)
  let acw2 : ℤ :=
    if (acw : ℚ) / (ach : ℚ) ≠ (ow : ℚ) / (oh : ℚ) then
      pytrunc ((ach : ℚ) * ((ow : ℚ) / (oh : ℚ)))
    else acw
  { x := cx + (cw - acw2).fdiv 2
    y := cy + (ch - ach).fdiv 2
    width := acw2
    height := ach }

/-- `VerticalVideoClipper.process` lines 213-220: the final bounds clamp,
applied after the zoom adjustment.  Each coordinate is first raised to 0
if negative, then pulled back if the rectangle overruns the right/bottom
edge. -/
def clampCrop (iw ih : ℤ) (r : CropRect) : CropRect :=
  let x1 : ℤ := if r.x < 0 then 0 else r.x
  let y1 : ℤ := if r.y < 0 then 0 else r.y
  let x2 : ℤ := if x1 + r.width > iw then iw - r.width else x1
  let y2 : ℤ := if y1 + r.height > ih then ih - r.height else y1
  { x := x2, y := y2, width := r.width, height := r.height }

/-- The per-frame crop rectangle exactly as emitted by
`VerticalVideoClipper.process` lines 207-220: zoom derivation on the
smoothed position, then the bounds clamp as the last step. -/
def frameCropRect (iw ih ow oh : ℤ) (zf : ℚ) (px py : ℤ) : CropRect :=
  let cd := initCropDims iw ih ow oh
  clampCrop iw ih (applyZoomDerive ow oh zf px py cd.1 cd.2)

/-! ## Zoom state machine (`apply_zoom_effect` lines 127-156) -/

/-- The three zoom states of `VerticalVideoClipper`:
`"neutral"`, `"zooming_in"`, `"zooming_out"`. -/
inductive ZoomState where
  | neutral
  | zooming_in
  | zooming_out
  deriving DecidableEq

/-- The mutable zoom fields of `VerticalVideoClipper`
(`zoom_state`, `zoom_factor`, `zoom_duration`, `zoom_step`,
`frames_since_last_zoom`). -/
structure ZoomVars where
  zoom_state : ZoomState
  zoom_factor : ℚ
  zoom_duration : ℤ
  zoom_step : ℚ
  frames_since_last_zoom : ℤ
  deriving DecidableEq

/-- `min_zoom = 1.0` (`__init__` line 78). -/
def min_zoom : ℚ := 1

/-- `max_zoom = 1.1` (`__init__` line 79). -/
def max_zoom : ℚ := 11 / 10

/-- One frame's worth of randomness consumed by `apply_zoom_effect`:
`random.randint(120, 300)`, `random.choice(["zooming_in",
"zooming_out"])`, `random.randint(150, 210)`, `random.uniform(0.05,
0.08)` and `random.uniform(0.03, 0.05)`, modelled as oracle inputs. -/
structure ZoomRand where
  threshold : ℤ
  zoomIn : Bool
  duration : ℤ
  deltaIn : ℚ
  deltaOut : ℚ
  deriving DecidableEq

/-- The ranges the Python random primitives guarantee for the oracle
values consumed in the `"neutral"` branch of `apply_zoom_effect`. -/
def zoomRandValid (r : ZoomRand) : Prop :=
  120 ≤ r.threshold ∧ r.threshold ≤ 300 ∧
  150 ≤ r.duration ∧ r.duration ≤ 210 ∧
  (5 : ℚ) / 100 ≤ r.deltaIn ∧ r.deltaIn ≤ (8 : ℚ) / 100 ∧
  (3 : ℚ) / 100 ≤ r.deltaOut ∧ r.deltaOut ≤ (5 : ℚ) / 100

instance (r : ZoomRand) : Decidable (zoomRandValid r) := by
  unfold zoomRandValid
  exact inferInstance

/-- The per-frame zoom state update of `apply_zoom_effect`
(lines 127-156), with the ambient randomness passed as `r`. -/
def zoomUpdate (r : ZoomRand) (v : ZoomVars) : ZoomVars :=
  match v.zoom_state with
  | ZoomState.neutral =>
    let fs := v.frames_since_last_zoom + 1
    if fs > r.threshold then
      let st := if r.zoomIn then ZoomState.zooming_in else ZoomState.zooming_out
      let dur := r.duration
      let step := (if r.zoomIn then r.deltaIn else -r.deltaOut) / (dur : ℚ)
      { v with zoom_state := st, zoom_duration := dur, zoom_step := step,
               frames_since_last_zoom := 0 }
    else
      { v with frames_since_last_zoom := fs }
  | ZoomState.zooming_in =>
    let f := v.zoom_factor + v.zoom_step
    let d := v.zoom_duration - 1
    if d ≤ 0 ∨ f ≥ max_zoom then
      { v with zoom_state := ZoomState.neutral, zoom_factor := min f max_zoom,
               zoom_duration := d, frames_since_last_zoom := 0 }
    else
      { v with zoom_factor := f, zoom_duration := d }
  | ZoomState.zooming_out =>
    let f := v.zoom_factor + v.zoom_step
    let d := v.zoom_duration - 1
    if d ≤ 0 ∨ f ≤ min_zoom then
      { v with zoom_state := ZoomState.neutral, zoom_factor := max f min_zoom,
               zoom_duration := d, frames_since_last_zoom := 0 }
    else
      { v with zoom_factor := f, zoom_duration := d }

/-- The zoom invariant: the factor stays inside `[min_zoom, max_zoom]`
and the step has the sign matching the active zoom direction. -/
def zoomInv (v : ZoomVars) : Prop :=
  min_zoom ≤ v.zoom_factor ∧ v.zoom_factor ≤ max_zoom ∧
  (v.zoom_state = ZoomState.zooming_in → 0 < v.zoom_step) ∧
  (v.zoom_state = ZoomState.zooming_out → v.zoom_step < 0)

instance (v : ZoomVars) : Decidable (zoomInv v) := by
  unfold zoomInv
  exact inferInstance

/-! ## Subject tracking targets (`process` lines 189-205) -/

/-- One frame of the target update in `VerticalVideoClipper.process`
lines 192-200: when `detect_person` returns a center, clamp
`center - crop/2` into `[0, input - crop]`; when it returns `None`, the
previous targets are left untouched. -/
def updateTarget (iw ih cw ch : ℤ) (tx ty : ℤ) (p : Option (ℤ × ℤ)) : ℤ × ℤ :=
  match p with
  | none => (tx, ty)
  | some c =>
    let max_x := iw - cw
    let max_y := ih - ch
    (max 0 (min max_x (c.1 - cw.fdiv 2)), max 0 (min max_y (c.2 - ch.fdiv 2)))

/-- The target position after a sequence of frames, each carrying an
optional detected subject center. -/
def runTargets (iw ih cw ch : ℤ) (init : ℤ × ℤ) (ps : List (Option (ℤ × ℤ))) : ℤ × ℤ :=
  ps.foldl (fun t p => updateTarget iw ih cw ch t.1 t.2 p) init

/-! ## Subtitle timeline (`vertical_video_subtitle.py`) -/

/-- A word-level timing record, one element of the `word_timings` list:
`{'word': ..., 'start': ..., 'end': ...}` (seconds). -/
structure WordTiming where
  word : String
  start : ℚ
  endTime : ℚ
  deriving DecidableEq

/-- `SubtitleEntry` (lines 13-24): index, start/end time in seconds,
text, and optional word timings (defaulting to `[]`). -/
structure SubtitleEntry where
  index : ℤ
  start_time : ℚ
  end_time : ℚ
  text : String
  word_timings : List WordTiming
  deriving DecidableEq

/-- `SubtitleProcessor._get_active_subtitle` (lines 279-294): linear
scan, returning the first entry with `start_time <= t <= end_time`, or
`none`. -/
def getActiveSubtitle : List SubtitleEntry → ℚ → Option SubtitleEntry
  | [], _ => none
  | s :: rest, t =>
    if s.start_time ≤ t ∧ t ≤ s.end_time then some s
    else getActiveSubtitle rest t

/-- The word/entry overlap condition of
`SubtitleProcessor._add_word_timings_to_subtitles` (lines 141-143):
`(word_start >= start and word_start < end) or (word_end > start and
word_end <= end) or (word_start <= start and word_end >= end)`. -/
def wordOverlaps (s : SubtitleEntry) (w : WordTiming) : Prop :=
  (w.start ≥ s.start_time ∧ w.start < s.end_time) ∨
  (w.endTime > s.start_time ∧ w.endTime ≤ s.end_time) ∨
  (w.start ≤ s.start_time ∧ w.endTime ≥ s.end_time)

instance (s : SubtitleEntry) (w : WordTiming) : Decidable (wordOverlaps s w) := by
  unfold wordOverlaps
  exact inferInstance

/-- The fully inclusive-boundary interval overlap test named by the
specification: `[w.start, w.end]` meets `[start_time, end_time]`. -/
def inclusiveOverlap (s : SubtitleEntry) (w : WordTiming) : Prop :=
  w.start ≤ s.end_time ∧ s.start_time ≤ w.endTime

instance (s : SubtitleEntry) (w : WordTiming) : Decidable (inclusiveOverlap s w) := by
  unfold inclusiveOverlap
  exact inferInstance

/-- The per-entry body of `_add_word_timings_to_subtitles` (lines
131-148): reset `word_timings` and append, in order, every word of the
JSON file satisfying the overlap condition. -/
def mergeAssign (words : List WordTiming) (s : SubtitleEntry) : SubtitleEntry :=
  { s with word_timings := words.filter (fun w => decide (wordOverlaps s w)) }

/-- `_add_word_timings_to_subtitles` over the whole entry list. -/
def addWordTimings (subs : List SubtitleEntry) (words : List WordTiming) : List SubtitleEntry :=
  subs.map (mergeAssign words)

/-! ## Caption renderer (`vertical_video_subtitle.py`) -/

/-- The punctuation set of `word.strip('.,?!:;')` in
`_add_highlighted_text_to_frame` line 534. -/
def stripChars : List Char := ['.', ',', '?', '!', ':', ';']

/-- Python `s.strip('.,?!:;')`: remove those characters from both ends. -/
def pyStrip (s : String) : String :=
  let l := s.toList.dropWhile (fun c => c ∈ stripChars)
  String.mk ((l.reverse.dropWhile (fun c => c ∈ stripChars)).reverse)

/-- Helper for `splitWords`: walk the characters, accumulating the
current word reversed; whitespace ends a word, empty fields are
dropped. -/
def splitWordsAux : List Char → List Char → List String
  | [], acc => if acc = [] then [] else [String.mk acc.reverse]
  | c :: cs, acc =>
    if c.isWhitespace then
      if acc = [] then splitWordsAux cs []
      else String.mk acc.reverse :: splitWordsAux cs []
    else splitWordsAux cs (c :: acc)

/-- Python `text.split()`: split on whitespace runs, dropping empty
fields. -/
def splitWords (s : String) : List String :=
  splitWordsAux s.toList []

/-- `regular_color = (255, 255, 255)` (line 442). -/
def regular_color : ℕ × ℕ × ℕ := (255, 255, 255)

/-- `highlight_color = (255, 255, 0)` (line 443). -/
def highlight_color : ℕ × ℕ × ℕ := (255, 255, 0)

/-- The word search of `_add_highlighted_text_to_frame` lines 451-454:
the first word timing whose `[start, end]` contains the current time. -/
def findHighlightedWord : List WordTiming → ℚ → Option String
  | [], _ => none
  | w :: rest, t =>
    if w.start ≤ t ∧ t ≤ w.endTime then some w.word
    else findHighlightedWord rest t

/-- The per-word color decision of line 534:
`word.strip('.,?!:;') == highlighted_word.strip('.,?!:;')` selects the
highlight color, anything else the regular color. -/
def wordRenderColor (hw w : String) : ℕ × ℕ × ℕ :=
  if pyStrip w = pyStrip hw then highlight_color else regular_color

/-- The colors STANDARD mode gives the words of the entry text
(`full_text.split()`), in order, against highlighted word `hw`. -/
def renderWordColors (text hw : String) : List (ℕ × ℕ × ℕ) :=
  (splitWords text).map (wordRenderColor hw)

/-- The current-word search of `_add_big_word_to_frame` lines 314-323:
the first word timing containing the current time, or `""` when none
does (`current_word` keeps its initial value). -/
def findBigWord : List WordTiming → ℚ → String
  | [], _ => ""
  | w :: rest, t =>
    if w.start ≤ t ∧ t ≤ w.endTime then w.word
    else findBigWord rest t

/-- `_add_big_word_to_frame` (lines 310-326 and onward) with the frame
type and the drawing work abstracted: when no current word is found the
frame is returned untouched (line 325-326), otherwise the drawing
operations are applied to it. -/
def addBigWordToFrame {F : Type} (draw : F → String → F) (frame : F)
    (wts : List WordTiming) (t : ℚ) : F :=
  let cw := findBigWord wts t
  if cw = "" then frame else draw frame cw

/-! ## Animation oscillator (`_process_video_with_subtitles` lines 192-208) -/

/-- The two animation styles. -/
inductive AnimationStyle where
  | bounce
  | scale
  deriving DecidableEq

/-- `bounce_cycle = int(fps * 0.6)` (line 193). -/
def bounceCycle (fps : ℚ) : ℤ := pytrunc (fps * (6 / 10))

/-- `scale_cycle = int(fps * 1.2)` (line 194). -/
def scaleCycle (fps : ℚ) : ℤ := pytrunc (fps * (12 / 10))

/-- The per-rendered-frame oscillator update (lines 205-208):
`oscillator = (oscillator + 1) % cycle` with the style-dependent cycle. -/
def oscUpdate (style : AnimationStyle) (fps : ℚ) (osc : ℤ) : ℤ :=
  match style with
  | AnimationStyle.bounce => (osc + 1) % bounceCycle fps
  | AnimationStyle.scale => (osc + 1) % scaleCycle fps

/-! ## Text wrapping (`SubtitleProcessor._wrap_text`, lines 605-658)

The pixel measurement `cv2.getTextSize(...)` is abstracted as a
text-metrics function `measure : String → ℕ` compared against
`max_width`. -/

/-- The word loop of `_wrap_text` (lines 624-643), including the early
`break` once `len(lines) >= max_lines - 1` after starting a new line.
Returns the accumulated `lines` (already joined) and the pending
`current_line` (as words). -/
def wrapLoop (measure : String → ℕ) (maxWidth maxLines : ℕ) :
    List String → List String → List String → List String × List String
  | [], current, lines => (lines, current)
  | w :: ws, current, lines =>
    let test := current ++ [w]
    if measure (String.intercalate " " test) ≤ maxWidth then
      wrapLoop measure maxWidth maxLines ws test lines
    else
      let lines2 := if current = [] then lines
                    else lines ++ [String.intercalate " " current]
      if lines2.length + 1 ≥ maxLines then (lines2, [w])
      else wrapLoop measure maxWidth maxLines ws [w] lines2

/-- The `len(lines) > max_lines` branch of `_wrap_text` (lines 650-656):
keep the first `max_lines - 1` lines and replace the tail of the last
one with an ellipsis. -/
def ellipsisTruncate (maxLines : ℕ) (lines : List String) : List String :=
  let l := lines.take (maxLines - 1)
  match l.getLast? with
  | none => l
  | some last =>
    let newLast := if last.length > 3 then last.dropRight 3 ++ "..." else last ++ "..."
    l.dropLast ++ [newLast]

/-- `_wrap_text` as a list of lines: run the word loop, append the
pending line when room remains (lines 646-647), then the over-cap
truncation branch (lines 650-656). -/
def wrapTextLines (measure : String → ℕ) (text : String) (maxWidth maxLines : ℕ) :
    List String :=
  let r := wrapLoop measure maxWidth maxLines (splitWords text) [] []
  let lines := if r.2 ≠ [] ∧ r.1.length < maxLines then
                 r.1 ++ [String.intercalate " " r.2]
               else r.1
  if lines.length > maxLines then ellipsisTruncate maxLines lines else lines

/-- `_wrap_text`'s return value: the lines joined with newlines. -/
def wrapText (measure : String → ℕ) (text : String) (maxWidth maxLines : ℕ) : String :=
  String.intercalate "\n" (wrapTextLines measure text maxWidth maxLines)

/-- `_wrap_text` without the over-cap/ellipsis branch, used to state
that the branch is unreachable. -/
def wrapTextLinesCore (measure : String → ℕ) (text : String) (maxWidth maxLines : ℕ) :
    List String :=
  let r := wrapLoop measure maxWidth maxLines (splitWords text) [] []
  if r.2 ≠ [] ∧ r.1.length < maxLines then
    r.1 ++ [String.intercalate " " r.2]
  else r.1

/-- Whether a rendered line carries the ellipsis suffix the
specification promises on overflow. -/
def endsWithEllipsis (s : String) : Bool :=
  s.toList.reverse.take 3 == ['.', '.', '.']

/-! ## SRT parsing (`SubtitleProcessor.parse_srt`, lines 660-717)

The file is split into blocks on blank lines and each block into lines;
the definitions below work at block granularity (a block is its list of
lines). -/

/-- Numeric value of a decimal digit character. -/
def digitVal (c : Char) : ℕ := c.toNat - 48

/-- A nonempty all-digit character list. -/
def isDigits (cs : List Char) : Bool :=
  !cs.isEmpty && cs.all (fun c => c.isDigit)

/-- Decimal value of a digit list. -/
def natOfDigits (cs : List Char) : ℕ :=
  cs.foldl (fun n c => n * 10 + digitVal c) 0

/-- Python `s.strip()` on a character list: drop whitespace from both
ends. -/
def pyTrimChars (cs : List Char) : List Char :=
  ((cs.dropWhile (fun c => c.isWhitespace)).reverse.dropWhile
    (fun c => c.isWhitespace)).reverse

/-- Python `int(s)` on the index line (line 687): optional sign after
stripping whitespace, then decimal digits; `None` models the
`ValueError` path. -/
def parsePyInt (s : String) : Option ℤ :=
  match pyTrimChars s.toList with
  | '-' :: rest => if isDigits rest then some (-(natOfDigits rest : ℤ)) else none
  | '+' :: rest => if isDigits rest then some ((natOfDigits rest : ℤ)) else none
  | cs => if isDigits cs then some ((natOfDigits cs : ℤ)) else none

/-- Two mandatory digits. -/
def twoDigits (a b : Char) : Option ℕ :=
  if a.isDigit && b.isDigit then some (digitVal a * 10 + digitVal b) else none

/-- Three mandatory digits. -/
def threeDigits (a b c : Char) : Option ℕ :=
  if a.isDigit && b.isDigit && c.isDigit then
    some (digitVal a * 100 + digitVal b * 10 + digitVal c)
  else none

/-- The timestamp-to-seconds conversion of lines 697-705:
`h*3600 + m*60 + s + ms/1000`. -/
def tsToSeconds (h m s ms : ℕ) : ℚ :=
  (h : ℚ) * 3600 + (m : ℚ) * 60 + (s : ℚ) + (ms : ℚ) / 1000

/-- `re.match(r'(\d\x7b2\x7d):... --> ...', lines[1])` of line 692: an
anchored match of `HH:MM:SS,mmm --> HH:MM:SS,mmm` at the start of the
line (trailing characters permitted, as with `re.match`), converted to
start and end seconds. -/
def parseTimestampLine (line : String) : Option (ℚ × ℚ) :=
  match line.toList with
  | a1 :: a2 :: ':' :: b1 :: b2 :: ':' :: c1 :: c2 :: ',' :: d1 :: d2 :: d3 ::
    ' ' :: '-' :: '-' :: '>' :: ' ' ::
    e1 :: e2 :: ':' :: f1 :: f2 :: ':' :: g1 :: g2 :: ',' :: k1 :: k2 :: k3 :: _ =>
    match twoDigits a1 a2, twoDigits b1 b2, twoDigits c1 c2, threeDigits d1 d2 d3,
          twoDigits e1 e2, twoDigits f1 f2, twoDigits g1 g2, threeDigits k1 k2 k3 with
    | some h, some m, some s, some ms, some h2, some m2, some s2, some ms2 =>
      some (tsToSeconds h m s ms, tsToSeconds h2 m2 s2 ms2)
    | _, _, _, _, _, _, _, _ => none
  | _ => none

/-- One block of `parse_srt` (lines 679-711): at least three lines, an
integer index line, a matching timestamp line, and the remaining text
lines joined with single spaces; any failure skips the block. -/
def parseBlock (lines : List String) : Option SubtitleEntry :=
  match lines with
  | l0 :: l1 :: l2 :: rest =>
    match parsePyInt l0 with
    | none => none
    | some idx =>
      match parseTimestampLine l1 with
      | none => none
      | some se =>
        some { index := idx, start_time := se.1, end_time := se.2,
               text := String.intercalate " " (l2 :: rest), word_timings := [] }
  | _ => none

/-- `parse_srt` over a list of blocks: valid blocks become entries in
order, malformed blocks are skipped silently. -/
def parseSrtBlocks (blocks : List (List String)) : List SubtitleEntry :=
  blocks.filterMap parseBlock

/-! # Theorems -/

/-- On nonnegative inputs, Python truncation agrees with the floor. -/
theorem pytrunc_of_nonneg {q : ℚ} (h : 0 ≤ q) : pytrunc q = Int.floor q := by
  unfold pytrunc
  rw [if_neg (not_lt.mpr h)]

/-- Truncation of a nonnegative rational is nonnegative. -/
theorem pytrunc_nonneg {q : ℚ} (h : 0 ≤ q) : 0 ≤ pytrunc q := by
  rw [pytrunc_of_nonneg h]
  exact Int.le_floor.mpr (by exact_mod_cast h)

/-- Truncation of a nonnegative rational below an integer stays below
that integer. -/
theorem pytrunc_le_int {q : ℚ} {n : ℤ} (hq : 0 ≤ q) (h : q ≤ (n : ℚ)) :
    pytrunc q ≤ n := by
  rw [pytrunc_of_nonneg hq]
  calc Int.floor q ≤ Int.floor ((n : ℚ)) := Int.floor_mono h
  _ = n := Int.floor_intCast n

/-- Truncation is monotone on nonnegative rationals. -/
theorem pytrunc_mono_of_nonneg {a b : ℚ} (ha : 0 ≤ a) (hab : a ≤ b) :
    pytrunc a ≤ pytrunc b := by
  rw [pytrunc_of_nonneg ha, pytrunc_of_nonneg (le_trans ha hab)]
  exact Int.floor_mono hab

/-- Claim C2: after every per-frame transition of the zoom state
machine, `zoom_factor` lies in `[min_zoom, max_zoom]`, and whenever the
increment would cross a bound the controller returns to the neutral
state with `zoom_factor` clamped to that bound in the same transition. -/
theorem zoomUpdate_keeps_factor_bounded (r : ZoomRand) (v : ZoomVars)
    (hr : zoomRandValid r) (hv : zoomInv v) :
    zoomInv (zoomUpdate r v) ∧
    (v.zoom_state = ZoomState.zooming_in → max_zoom ≤ v.zoom_factor + v.zoom_step →
      (zoomUpdate r v).zoom_state = ZoomState.neutral ∧
      (zoomUpdate r v).zoom_factor = max_zoom) ∧
    (v.zoom_state = ZoomState.zooming_out → v.zoom_factor + v.zoom_step ≤ min_zoom →
      (zoomUpdate r v).zoom_state = ZoomState.neutral ∧
      (zoomUpdate r v).zoom_factor = min_zoom) := by
  obtain ⟨ht1, ht2, hd1, hd2, hi1, hi2, ho1, ho2⟩ := hr
  obtain ⟨st, zfac, zdur, zstep, fs⟩ := v
  obtain ⟨hmin, hmax, hin, hout⟩ := hv
  simp only at hin hout
  have hdurpos : (0 : ℚ) < (r.duration : ℚ) := by
    have h15 : (0 : ℤ) < r.duration := by linarith
    exact_mod_cast h15
  have hminmax : min_zoom ≤ max_zoom := by norm_num [min_zoom, max_zoom]
  cases st with
  | neutral =>
    refine ⟨?_, by simp, by simp⟩
    simp only [zoomUpdate, zoomInv]
    split_ifs with hthr hz
    · refine ⟨hmin, hmax, fun _ => ?_, fun hst => ?_⟩
      · dsimp only
        have hpos : (0 : ℚ) < r.deltaIn := by linarith
        positivity
      · exact absurd hst (by simp)
    · refine ⟨hmin, hmax, fun hst => ?_, fun _ => ?_⟩
      · exact absurd hst (by simp)
      · dsimp only
        have hneg : -r.deltaOut < 0 := by linarith
        exact div_neg_of_neg_of_pos hneg hdurpos
    · exact ⟨hmin, hmax, fun h => absurd h (by simp), fun h => absurd h (by simp)⟩
  | zooming_in =>
    have hstep : 0 < zstep := hin rfl
    refine ⟨?_, ?_, by intro h hc; exact ZoomState.noConfusion h⟩
    · simp only [zoomUpdate, zoomInv]
      split_ifs with hif
      · refine ⟨?_, ?_, fun h => absurd h (by simp), fun h => absurd h (by simp)⟩
        · dsimp only
          exact le_min (by linarith) hminmax
        · dsimp only
          exact min_le_right _ _
      · push_neg at hif
        refine ⟨?_, ?_, fun _ => hstep, fun h => absurd h (by simp)⟩
        · dsimp only
          linarith
        · dsimp only
          linarith [hif.2]
    · intro _ hcross
      simp only [zoomUpdate]
      split_ifs with hif
      · exact ⟨rfl, min_eq_right hcross⟩
      · push_neg at hif
        exact absurd hcross (not_le.mpr hif.2)
  | zooming_out =>
    have hstep : zstep < 0 := hout rfl
    refine ⟨?_, by intro h hc; exact ZoomState.noConfusion h, ?_⟩
    · simp only [zoomUpdate, zoomInv]
      split_ifs with hif
      · refine ⟨?_, ?_, fun h => absurd h (by simp), fun h => absurd h (by simp)⟩
        · dsimp only
          exact le_max_right _ _
        · dsimp only
          exact max_le (by linarith) hminmax
      · push_neg at hif
        refine ⟨?_, ?_, fun h => absurd h (by simp), fun _ => hstep⟩
        · dsimp only
          linarith [hif.2]
        · dsimp only
          linarith
    · intro _ hcross
      simp only [zoomUpdate]
      split_ifs with hif
      · exact ⟨rfl, max_eq_right hcross⟩
      · push_neg at hif
        exact absurd hcross (not_le.mpr hif.2)

/-- Witness for C2: the theorem applied to a concrete oracle and a
concrete in-range mid-zoom state. -/
theorem zoomUpdate_keeps_factor_bounded_w :
    zoomInv (zoomUpdate ⟨120, true, 150, 6/100, 4/100⟩
      ⟨ZoomState.zooming_in, 1, 5, 1/100, 0⟩) :=
  (zoomUpdate_keeps_factor_bounded ⟨120, true, 150, 6/100, 4/100⟩
    ⟨ZoomState.zooming_in, 1, 5, 1/100, 0⟩
    (by norm_num [zoomRandValid])
    ⟨by norm_num [min_zoom], by norm_num [max_zoom], fun _ => by norm_num,
     fun h => ZoomState.noConfusion h⟩).1

/-- Claim C3: the active-entry query returns the first entry in list
order whose range satisfies `start_time ≤ t ≤ end_time` (both boundaries
inclusive), returns `none` when `t` is outside every entry's range, and
for overlapping entries ties break by list order. -/
theorem getActiveSubtitle_first_match (subs : List SubtitleEntry) (t : ℚ) :
    (getActiveSubtitle subs t = none ↔
      ∀ e ∈ subs, ¬ (e.start_time ≤ t ∧ t ≤ e.end_time)) ∧
    (∀ e, getActiveSubtitle subs t = some e →
      e ∈ subs ∧ e.start_time ≤ t ∧ t ≤ e.end_time) ∧
    (∀ pre e post, subs = pre ++ e :: post →
      e.start_time ≤ t ∧ t ≤ e.end_time →
      (∀ x ∈ pre, ¬ (x.start_time ≤ t ∧ t ≤ x.end_time)) →
      getActiveSubtitle subs t = some e) := by
  refine ⟨?_, ?_, ?_⟩
  · induction subs with
    | nil => simp [getActiveSubtitle]
    | cons s rest ih =>
      by_cases h : s.start_time ≤ t ∧ t ≤ s.end_time
      · rw [show getActiveSubtitle (s :: rest) t =
            (if s.start_time ≤ t ∧ t ≤ s.end_time then some s
             else getActiveSubtitle rest t) from rfl, if_pos h]
        constructor
        · intro habs
          exact absurd habs (by simp)
        · intro hall
          exact ((hall s (List.mem_cons_self _ _)) h).elim
      · rw [show getActiveSubtitle (s :: rest) t =
            (if s.start_time ≤ t ∧ t ≤ s.end_time then some s
             else getActiveSubtitle rest t) from rfl, if_neg h, ih]
        constructor
        · intro hall e he
          rcases List.mem_cons.mp he with rfl | hmem
          · exact h
          · exact hall e hmem
        · intro hall e he
          exact hall e (List.mem_cons_of_mem _ he)
  · intro e
    induction subs with
    | nil => intro h; simp [getActiveSubtitle] at h
    | cons s rest ih =>
      intro hsome
      by_cases h : s.start_time ≤ t ∧ t ≤ s.end_time
      · rw [show getActiveSubtitle (s :: rest) t =
            (if s.start_time ≤ t ∧ t ≤ s.end_time then some s
             else getActiveSubtitle rest t) from rfl, if_pos h] at hsome
        obtain rfl := Option.some.inj hsome
        exact ⟨List.mem_cons_self _ _, h⟩
      · rw [show getActiveSubtitle (s :: rest) t =
            (if s.start_time ≤ t ∧ t ≤ s.end_time then some s
             else getActiveSubtitle rest t) from rfl, if_neg h] at hsome
        obtain ⟨hm, hc⟩ := ih hsome
        exact ⟨List.mem_cons_of_mem _ hm, hc⟩
  · intro pre e post hsubs hcond hpre
    subst hsubs
    induction pre with
    | nil =>
      rw [show getActiveSubtitle ([] ++ e :: post) t =
          (if e.start_time ≤ t ∧ t ≤ e.end_time then some e
           else getActiveSubtitle post t) from rfl, if_pos hcond]
    | cons x xs ih =>
      rw [show getActiveSubtitle ((x :: xs) ++ e :: post) t =
          (if x.start_time ≤ t ∧ t ≤ x.end_time then some x
           else getActiveSubtitle (xs ++ e :: post) t) from rfl,
        if_neg (hpre x (List.mem_cons_self _ _))]
      exact ih (fun y hy => hpre y (List.mem_cons_of_mem _ hy))

/-- Witness for C3: two overlapping entries both containing `t = 1`; the
first in list order is returned. -/
theorem getActiveSubtitle_first_match_w :
    getActiveSubtitle [⟨1, 0, 2, "a", []⟩, ⟨2, 1, 3, "b", []⟩] 1 =
      some ⟨1, 0, 2, "a", []⟩ :=
  (getActiveSubtitle_first_match [⟨1, 0, 2, "a", []⟩, ⟨2, 1, 3, "b", []⟩] 1).2.2
    [] ⟨1, 0, 2, "a", []⟩ [⟨2, 1, 3, "b", []⟩] rfl (by decide) (by decide)

/-- Claim C7: when the subject locator returns `none`, the crop
controller's target position is retained unchanged, for a single frame
and across arbitrary runs of absent frames appended to any history;
absence is not an error. -/
theorem target_hold_last_known :
    (∀ iw ih cw ch tx ty, updateTarget iw ih cw ch tx ty none = (tx, ty)) ∧
    (∀ (iw ih cw ch : ℤ) (init : ℤ × ℤ) (ps qs : List (Option (ℤ × ℤ))),
      (∀ q ∈ qs, q = none) →
      runTargets iw ih cw ch init (ps ++ qs) = runTargets iw ih cw ch init ps) := by
  constructor
  · intro iw ih cw ch tx ty
    rfl
  · intro iw ih cw ch init ps qs hq
    have key : ∀ (l : List (Option (ℤ × ℤ))) (acc : ℤ × ℤ), (∀ q ∈ l, q = none) →
        l.foldl (fun u p => updateTarget iw ih cw ch u.1 u.2 p) acc = acc := by
      intro l
      induction l with
      | nil => intro acc _; rfl
      | cons q l ih =>
        intro acc hl
        have hqn : q = none := hl q (List.mem_cons_self _ _)
        subst hqn
        rw [List.foldl_cons]
        exact ih acc (fun y hy => hl y (List.mem_cons_of_mem _ hy))
    unfold runTargets
    rw [List.foldl_append]
    exact key qs _ hq

/-- Witness for C7: a detected subject followed by two absent frames
leaves the target where the last detection put it. -/
theorem target_hold_last_known_w :
    runTargets 1920 1080 607 1080 (0, 0) ([some (500, 300)] ++ [none, none]) =
      runTargets 1920 1080 607 1080 (0, 0) [some (500, 300)] :=
  target_hold_last_known.2 1920 1080 607 1080 (0, 0) [some (500, 300)]
    [none, none] (by decide)

/-- Claim C8: the animation oscillator advances by one per rendered
frame modulo the style-dependent cycle (`int(0.6*fps)` for bounce,
`int(1.2*fps)` for scale); at `fps = 30` the bounce cycle is 18 frames
and 18 increments from 0 return the oscillator to 0. -/
theorem oscillator_wraps :
    bounceCycle 30 = 18 ∧ scaleCycle 30 = 36 ∧
    (oscUpdate AnimationStyle.bounce 30)^[18] 0 = 0 := by
  have hb : bounceCycle 30 = 18 := by
    norm_num [bounceCycle, pytrunc]
  have hs : scaleCycle 30 = 36 := by
    norm_num [scaleCycle, pytrunc]
  refine ⟨hb, hs, ?_⟩
  have hf : oscUpdate AnimationStyle.bounce 30 = fun osc => (osc + 1) % 18 := by
    funext osc
    simp [oscUpdate, hb]
  rw [hf]
  decide

/-- Claim C10: in BIGWORD mode, when the entry's (non-empty) word
timings contain no word whose interval includes the current time, the
frame is returned completely unchanged; there is no fallback to the full
entry text. -/
theorem bigword_no_current_word_unchanged (F : Type) (draw : F → String → F)
    (frame : F) (wts : List WordTiming) (t : ℚ)
    (hne : wts ≠ [])
    (hnone : ∀ w ∈ wts, ¬ (w.start ≤ t ∧ t ≤ w.endTime)) :
    addBigWordToFrame draw frame wts t = frame := by
  have hfind : ∀ (l : List WordTiming),
      (∀ w ∈ l, ¬ (w.start ≤ t ∧ t ≤ w.endTime)) → findBigWord l t = "" := by
    intro l
    induction l with
    | nil => intro _; rfl
    | cons w rest ih =>
      intro hl
      rw [show findBigWord (w :: rest) t =
          (if w.start ≤ t ∧ t ≤ w.endTime then w.word else findBigWord rest t)
          from rfl, if_neg (hl w (List.mem_cons_self _ _))]
      exact ih (fun y hy => hl y (List.mem_cons_of_mem _ hy))
  simp only [addBigWordToFrame]
  rw [hfind wts hnone]
  simp

/-- Witness for C10: a single word timing `[0, 1]` queried at `t = 2`
leaves a (numeric stand-in) frame unchanged under a drawing operation
that would visibly alter it. -/
theorem bigword_no_current_word_unchanged_w :
    addBigWordToFrame (fun (n : ℕ) _ => n + 1) 7 [⟨"a", 0, 1⟩] 2 = 7 :=
  bigword_no_current_word_unchanged ℕ (fun n _ => n + 1) 7 [⟨"a", 0, 1⟩] 2
    (by decide) (by decide)

/-- Claim C9: in STANDARD mode a rendered word is colored with the
highlight color exactly when it equals the currently timed word after
stripping `.,?!:;` from both ends of both strings; consequently repeated
words are highlighted at every occurrence simultaneously. -/
theorem standard_highlight_by_stripped_equality
    (text : String) (wts : List WordTiming) (t : ℚ) (hw : String)
    (hfound : findHighlightedWord wts t = some hw) :
    (∀ (i : ℕ) (w : String), (splitWords text)[i]? = some w →
      ((renderWordColors text hw)[i]? = some highlight_color ↔
        pyStrip w = pyStrip hw)) ∧
    (∀ (i j : ℕ) (wi wj : String), (splitWords text)[i]? = some wi →
      (splitWords text)[j]? = some wj → wi = wj →
      (renderWordColors text hw)[i]? = (renderWordColors text hw)[j]?) := by
  constructor
  · intro i w hiw
    unfold renderWordColors
    rw [List.getElem?_map, hiw]
    simp only [Option.map_some']
    by_cases hstrip : pyStrip w = pyStrip hw
    · simp [wordRenderColor, hstrip]
    · simp only [wordRenderColor, if_neg hstrip]
      constructor
      · intro habs
        exact absurd (Option.some.inj habs) (by decide)
      · intro habs
        exact absurd habs hstrip
  · intro i j wi wj hi hj heq
    unfold renderWordColors
    rw [List.getElem?_map, List.getElem?_map, hi, hj, heq]

/-- Witness for C9: with "go," being spoken, the second word of
"Go go go." is highlighted because both strip to "go". -/
theorem standard_highlight_by_stripped_equality_w :
    (renderWordColors "Go go go." "go,")[1]? = some highlight_color ↔
      pyStrip "go" = pyStrip "go," :=
  (standard_highlight_by_stripped_equality "Go go go." [⟨"go,", 0, 1⟩] 0 "go,"
    (by decide)).1 1 "go" (by decide)

/-- Claim C4 counterexample: entry with range `[0, 2]` and word with
interval `[2, 3]` touch at the shared endpoint, so the inclusive-boundary
overlap test of the claim accepts the pair, yet the merge leaves the
entry's `word_timings` empty. -/
theorem wordTimings_inclusive_overlap_cex :
    inclusiveOverlap ⟨1, 0, 2, "a", []⟩ ⟨"w", 2, 3⟩ ∧
    ¬ wordOverlaps ⟨1, 0, 2, "a", []⟩ ⟨"w", 2, 3⟩ ∧
    addWordTimings [⟨1, 0, 2, "a", []⟩] [⟨"w", 2, 3⟩] = [⟨1, 0, 2, "a", []⟩] := by
  refine ⟨by decide, by decide, by decide⟩

/-- Claim C4 (amended): the merge assigns to an entry exactly the words
passing the half-open test `(start ∈ [start_time, end_time)) ∨ (end ∈
(start_time, end_time]) ∨ (word covers entry)`; a word strictly
straddling a shared boundary is assigned to both adjacent entries (so a
word may appear in several entries), while a word only touching the
boundary at the shared endpoint is assigned solely to the later entry. -/
theorem wordTimings_merge_boundary (words : List WordTiming) :
    (∀ (s : SubtitleEntry) (w : WordTiming),
      w ∈ (mergeAssign words s).word_timings ↔ w ∈ words ∧ wordOverlaps s w) ∧
    (∀ (s1 s2 : SubtitleEntry) (w : WordTiming), w ∈ words →
      s1.end_time = s2.start_time →
      w.start < s1.end_time → s1.end_time < w.endTime →
      w ∈ (mergeAssign words s1).word_timings ∧
      w ∈ (mergeAssign words s2).word_timings) ∧
    (∀ (s1 s2 : SubtitleEntry) (w : WordTiming), w ∈ words →
      s1.start_time < s1.end_time → s1.end_time = s2.start_time →
      w.start = s1.end_time → s1.end_time < w.endTime →
      w ∉ (mergeAssign words s1).word_timings ∧
      w ∈ (mergeAssign words s2).word_timings) := by
  have hmem : ∀ (s : SubtitleEntry) (w : WordTiming),
      w ∈ (mergeAssign words s).word_timings ↔ w ∈ words ∧ wordOverlaps s w := by
    intro s w
    simp [mergeAssign, List.mem_filter]
  refine ⟨hmem, ?_, ?_⟩
  · intro s1 s2 w hwm heq hlt1 hlt2
    constructor
    · rw [hmem]
      refine ⟨hwm, ?_⟩
      rcases le_total w.start s1.start_time with hle | hge
      · exact Or.inr (Or.inr ⟨hle, by linarith⟩)
      · exact Or.inl ⟨hge, hlt1⟩
    · rw [hmem]
      refine ⟨hwm, ?_⟩
      rcases le_total w.endTime s2.end_time with hle | hge
      · exact Or.inr (Or.inl ⟨by linarith, hle⟩)
      · exact Or.inr (Or.inr ⟨by linarith, hge⟩)
  · intro s1 s2 w hwm hs1 heq htouch hlt2
    constructor
    · rw [hmem]
      rintro ⟨-, hov⟩
      rcases hov with ⟨h1, h2⟩ | ⟨h1, h2⟩ | ⟨h1, h2⟩
      · linarith
      · linarith
      · linarith
    · rw [hmem]
      refine ⟨hwm, ?_⟩
      rcases le_total w.endTime s2.end_time with hle | hge
      · exact Or.inr (Or.inl ⟨by linarith, hle⟩)
      · exact Or.inr (Or.inr ⟨by linarith, hge⟩)

/-- Witness for C4 (amended): word `[1, 3]` strictly straddles the
boundary between entries `[0, 2]` and `[2, 4]` and lands in both. -/
theorem wordTimings_merge_boundary_w :
    ⟨"w", 1, 3⟩ ∈ (mergeAssign [⟨"w", 1, 3⟩] ⟨1, 0, 2, "a", []⟩).word_timings ∧
    ⟨"w", 1, 3⟩ ∈ (mergeAssign [⟨"w", 1, 3⟩] ⟨2, 2, 4, "b", []⟩).word_timings :=
  (wordTimings_merge_boundary [⟨"w", 1, 3⟩]).2.1
    ⟨1, 0, 2, "a", []⟩ ⟨2, 2, 4, "b", []⟩ ⟨"w", 1, 3⟩
    (by decide) (by decide) (by decide) (by decide)

/-- Claim C6: a well-formed SRT block — an integer index line, a
timestamp line matching `HH:MM:SS,mmm --> HH:MM:SS,mmm`, and at least
one text line — parses to an entry carrying the timestamps converted to
seconds and the text lines joined with spaces; malformed blocks are
skipped silently. -/
theorem parse_srt_block_spec :
    (∀ (l0 l1 l2 : String) (rest : List String) (i : ℤ) (st en : ℚ),
      parsePyInt l0 = some i → parseTimestampLine l1 = some (st, en) →
      parseBlock (l0 :: l1 :: l2 :: rest) =
        some ⟨i, st, en, String.intercalate " " (l2 :: rest), []⟩) ∧
    (∀ (b : List String) (bs : List (List String)), parseBlock b = none →
      parseSrtBlocks (b :: bs) = parseSrtBlocks bs) := by
  constructor
  · intro l0 l1 l2 rest i st en h0 h1
    simp [parseBlock, h0, h1]
  · intro b bs hb
    simp [parseSrtBlocks, List.filterMap_cons, hb]

/-- Witness for C6: the block `1 / 00:00:01,000 --> 00:00:03,500 /
Hello world` parses to `start_time = 1`, `end_time = 3.5`,
`text = "Hello world"`. -/
theorem parse_srt_block_spec_w :
    parseBlock ["1", "00:00:01,000 --> 00:00:03,500", "Hello world"] =
      some ⟨1, 1, 7/2, "Hello world", []⟩ := by
  have h1 : parseTimestampLine "00:00:01,000 --> 00:00:03,500" = some (1, 7/2) := by
    rw [show parseTimestampLine "00:00:01,000 --> 00:00:03,500" =
        some (tsToSeconds 0 0 1 0, tsToSeconds 0 0 3 500) from rfl]
    norm_num [tsToSeconds]
  have h := parse_srt_block_spec.1 "1" "00:00:01,000 --> 00:00:03,500"
    "Hello world" [] 1 1 (7/2) (by decide) h1
  exact h

/-- Equation lemma for the cons case of `wrapLoop`. -/
theorem wrapLoop_cons (measure : String → ℕ) (maxWidth maxLines : ℕ)
    (w : String) (ws current lines : List String) :
    wrapLoop measure maxWidth maxLines (w :: ws) current lines =
      if measure (String.intercalate " " (current ++ [w])) ≤ maxWidth then
        wrapLoop measure maxWidth maxLines ws (current ++ [w]) lines
      else
        (fun lines2 =>
          if lines2.length + 1 ≥ maxLines then (lines2, [w])
          else wrapLoop measure maxWidth maxLines ws [w] lines2)
        (if current = [] then lines
         else lines ++ [String.intercalate " " current]) := rfl

/-- Claim C5 counterexample: with a metrics function under which exactly
two of the given words fit per line, the seven-word input needs four
lines uncapped — its content exceeds the three-line cap — yet the capped
output ends in the bare line "five" with no ellipsis appended; the words
"six" and "seven" are silently dropped. -/
theorem wrap_text_no_ellipsis_cex :
    (wrapTextLines String.length "one two three four five six seven" 10 100).length = 4 ∧
    wrapTextLines String.length "one two three four five six seven" 10 3 =
      ["one two", "three four", "five"] ∧
    endsWithEllipsis (List.getLastD
      (wrapTextLines String.length "one two three four five six seven" 10 3) "") =
      false := by
  refine ⟨by decide, by decide, by decide⟩

/-- Claim C5 (amended): the wrap is a greedy word-wrap against the
metrics capability, capped at `max_lines` lines; for `max_lines ≥ 1` the
over-cap ellipsis branch is unreachable (the result equals the
branch-free computation and never exceeds `max_lines` lines), so when
content overflows the cap the output is the first `max_lines - 1` greedy
lines followed by a line holding only the first word that did not fit,
with the remaining words dropped and no ellipsis appended; the
two-words-per-line instance wraps to ["one two", "three four", "five"]. -/
theorem wrap_text_greedy_capped (measure : String → ℕ) (text : String)
    (maxWidth maxLines : ℕ) (hml : 1 ≤ maxLines) :
    wrapTextLines measure text maxWidth maxLines =
      wrapTextLinesCore measure text maxWidth maxLines ∧
    (wrapTextLines measure text maxWidth maxLines).length ≤ maxLines ∧
    wrapTextLines String.length "one two three four five" 10 3 =
      ["one two", "three four", "five"] := by
  have key : ∀ (ws current lines : List String), lines.length + 1 ≤ maxLines →
      (wrapLoop measure maxWidth maxLines ws current lines).1.length ≤ maxLines := by
    intro ws
    induction ws with
    | nil =>
      intro current lines h
      rw [show wrapLoop measure maxWidth maxLines [] current lines =
          (lines, current) from rfl]
      dsimp only
      omega
    | cons w ws ih =>
      intro current lines h
      rw [wrapLoop_cons]
      by_cases hfit : measure (String.intercalate " " (current ++ [w])) ≤ maxWidth
      · rw [if_pos hfit]
        exact ih _ _ h
      · rw [if_neg hfit]
        dsimp only
        set l2 := if current = [] then lines
                  else lines ++ [String.intercalate " " current] with hl2
        have hlen2 : l2.length ≤ lines.length + 1 := by
          rw [hl2]
          split_ifs <;> simp
        by_cases hbreak : l2.length + 1 ≥ maxLines
        · rw [if_pos hbreak]
          dsimp only
          omega
        · rw [if_neg hbreak]
          exact ih [w] l2 (by omega)
  have hr := key (splitWords text) [] [] (by simp only [List.length_nil]; omega)
  have hcore : (wrapTextLinesCore measure text maxWidth maxLines).length ≤ maxLines := by
    unfold wrapTextLinesCore
    dsimp only
    split_ifs with hc
    · simp only [List.length_append, List.length_cons, List.length_nil]
      omega
    · exact hr
  have heq : wrapTextLines measure text maxWidth maxLines =
      wrapTextLinesCore measure text maxWidth maxLines := by
    rw [show wrapTextLines measure text maxWidth maxLines =
        (if (wrapTextLinesCore measure text maxWidth maxLines).length > maxLines
         then ellipsisTruncate maxLines (wrapTextLinesCore measure text maxWidth maxLines)
         else wrapTextLinesCore measure text maxWidth maxLines) from rfl]
    rw [if_neg (by omega)]
  exact ⟨heq, heq ▸ hcore, by decide⟩

/-- Witness for C5 (amended): the two-words-per-line instance, with the
cap hypothesis discharged at `max_lines = 3`. -/
theorem wrap_text_greedy_capped_w :
    wrapTextLines String.length "one two three four five" 10 3 =
      ["one two", "three four", "five"] :=
  (wrap_text_greedy_capped String.length "one two three four five" 10 3
    (by decide)).2.2

/-- The bounds clamp of `process` lines 213-220 keeps any rectangle
whose dimensions do not exceed the source inside the source frame. -/
theorem clampCrop_bounds (iw ih : ℤ) (r : CropRect)
    (hw0 : 0 ≤ r.width) (hw : r.width ≤ iw)
    (hh0 : 0 ≤ r.height) (hh : r.height ≤ ih) :
    0 ≤ (clampCrop iw ih r).x ∧
    (clampCrop iw ih r).x + (clampCrop iw ih r).width ≤ iw ∧
    0 ≤ (clampCrop iw ih r).y ∧
    (clampCrop iw ih r).y + (clampCrop iw ih r).height ≤ ih := by
  unfold clampCrop
  dsimp only
  split_ifs <;> refine ⟨by omega, by omega, by omega, by omega⟩

/-- The initial crop dimensions of `__init__` lines 50-60 fit in the
source, and re-deriving a width from the crop height and the output
aspect ratio cannot overrun the source width. -/
theorem initCropDims_bounds (iw ih ow oh : ℤ)
    (hiw : 0 < iw) (hih : 0 < ih) (how : 0 < ow) (hoh : 0 < oh) :
    0 ≤ (initCropDims iw ih ow oh).1 ∧ (initCropDims iw ih ow oh).1 ≤ iw ∧
    0 ≤ (initCropDims iw ih ow oh).2 ∧ (initCropDims iw ih ow oh).2 ≤ ih ∧
    pytrunc (((initCropDims iw ih ow oh).2 : ℚ) * ((ow : ℚ) / (oh : ℚ))) ≤ iw := by
  have how' : (0 : ℚ) < (ow : ℚ) := by exact_mod_cast how
  have hoh' : (0 : ℚ) < (oh : ℚ) := by exact_mod_cast hoh
  have hih' : (0 : ℚ) ≤ (ih : ℚ) := by exact_mod_cast le_of_lt hih
  have hiw' : (0 : ℚ) ≤ (iw : ℚ) := by exact_mod_cast le_of_lt hiw
  have har : (0 : ℚ) < (ow : ℚ) / (oh : ℚ) := div_pos how' hoh'
  unfold initCropDims
  dsimp only
  split_ifs with hbig
  · dsimp only
    have hnn : (0 : ℚ) ≤ (iw : ℚ) * ((oh : ℚ) / (ow : ℚ)) := by positivity
    have hlt : (iw : ℚ) < (ih : ℚ) * ((ow : ℚ) / (oh : ℚ)) := by
      have h1 : (iw : ℚ) < ((pytrunc ((ih : ℚ) * ((ow : ℚ) / (oh : ℚ)))) : ℚ) := by
        exact_mod_cast hbig
      calc (iw : ℚ) < ((pytrunc ((ih : ℚ) * ((ow : ℚ) / (oh : ℚ)))) : ℚ) := h1
      _ = ((Int.floor ((ih : ℚ) * ((ow : ℚ) / (oh : ℚ)))) : ℚ) := by
          rw [pytrunc_of_nonneg (by positivity)]
      _ ≤ (ih : ℚ) * ((ow : ℚ) / (oh : ℚ)) := Int.floor_le _
    have hmul : (iw : ℚ) * (oh : ℚ) < (ih : ℚ) * (ow : ℚ) := by
      rw [← mul_div_assoc, lt_div_iff hoh'] at hlt
      exact hlt
    have hch_le_ih : (iw : ℚ) * ((oh : ℚ) / (ow : ℚ)) ≤ (ih : ℚ) := by
      rw [← mul_div_assoc, div_le_iff how']
      linarith
    refine ⟨le_of_lt hiw, le_refl iw, pytrunc_nonneg hnn,
      pytrunc_le_int hnn hch_le_ih, ?_⟩
    have hch0 : (0 : ℤ) ≤ pytrunc ((iw : ℚ) * ((oh : ℚ) / (ow : ℚ))) :=
      pytrunc_nonneg hnn
    have hchq : ((pytrunc ((iw : ℚ) * ((oh : ℚ) / (ow : ℚ)))) : ℚ) ≤
        (iw : ℚ) * ((oh : ℚ) / (ow : ℚ)) := by
      rw [pytrunc_of_nonneg hnn]
      exact Int.floor_le _
    have hprod : ((pytrunc ((iw : ℚ) * ((oh : ℚ) / (ow : ℚ)))) : ℚ) *
        ((ow : ℚ) / (oh : ℚ)) ≤ (iw : ℚ) := by
      calc ((pytrunc ((iw : ℚ) * ((oh : ℚ) / (ow : ℚ)))) : ℚ) * ((ow : ℚ) / (oh : ℚ))
          ≤ ((iw : ℚ) * ((oh : ℚ) / (ow : ℚ))) * ((ow : ℚ) / (oh : ℚ)) :=
            mul_le_mul_of_nonneg_right hchq (le_of_lt har)
      _ = (iw : ℚ) := by field_simp
    exact pytrunc_le_int (mul_nonneg (by exact_mod_cast hch0) (le_of_lt har)) hprod
  · push_neg at hbig
    dsimp only
    exact ⟨pytrunc_nonneg (by positivity), hbig, le_of_lt hih, le_refl ih, hbig⟩

/-- The crop derivation of `apply_zoom_effect` lines 158-172 never makes
the rectangle larger than the source when the zoom factor is at least
one and the incoming dimensions satisfy the initializer's bounds. -/
theorem applyZoomDerive_dims (iw ih ow oh : ℤ) (zf : ℚ) (cx cy cw ch : ℤ)
    (how : 0 < ow) (hoh : 0 < oh) (hzf : 1 ≤ zf)
    (hcw0 : 0 ≤ cw) (hch0 : 0 ≤ ch) (hcw : cw ≤ iw) (hch : ch ≤ ih)
    (hK : pytrunc ((ch : ℚ) * ((ow : ℚ) / (oh : ℚ))) ≤ iw) :
    0 ≤ (applyZoomDerive ow oh zf cx cy cw ch).width ∧
    (applyZoomDerive ow oh zf cx cy cw ch).width ≤ iw ∧
    0 ≤ (applyZoomDerive ow oh zf cx cy cw ch).height ∧
    (applyZoomDerive ow oh zf cx cy cw ch).height ≤ ih := by
  have har : (0 : ℚ) < (ow : ℚ) / (oh : ℚ) :=
    div_pos (by exact_mod_cast how) (by exact_mod_cast hoh)
  have hcw0' : (0 : ℚ) ≤ (cw : ℚ) := by exact_mod_cast hcw0
  have hch0' : (0 : ℚ) ≤ (ch : ℚ) := by exact_mod_cast hch0
  have hzf0 : (0 : ℚ) < zf := lt_of_lt_of_le zero_lt_one hzf
  have hdivw : (0 : ℚ) ≤ (cw : ℚ) / zf := by positivity
  have hdivh : (0 : ℚ) ≤ (ch : ℚ) / zf := by positivity
  have hach0 : 0 ≤ pytrunc ((ch : ℚ) / zf) := pytrunc_nonneg hdivh
  have hach_le : pytrunc ((ch : ℚ) / zf) ≤ ch :=
    pytrunc_le_int hdivh (div_le_self hch0' hzf)
  unfold applyZoomDerive
  dsimp only
  split_ifs with hasp
  · refine ⟨?_, ?_, hach0, le_trans hach_le hch⟩
    · exact pytrunc_nonneg (mul_nonneg (by exact_mod_cast hach0) (le_of_lt har))
    · have hle : ((pytrunc ((ch : ℚ) / zf)) : ℚ) * ((ow : ℚ) / (oh : ℚ)) ≤
          (ch : ℚ) * ((ow : ℚ) / (oh : ℚ)) := by
        apply mul_le_mul_of_nonneg_right _ (le_of_lt har)
        exact_mod_cast hach_le
      calc pytrunc (((pytrunc ((ch : ℚ) / zf)) : ℚ) * ((ow : ℚ) / (oh : ℚ)))
          ≤ pytrunc ((ch : ℚ) * ((ow : ℚ) / (oh : ℚ))) :=
            pytrunc_mono_of_nonneg
              (mul_nonneg (by exact_mod_cast hach0) (le_of_lt har)) hle
      _ ≤ iw := hK
  · refine ⟨pytrunc_nonneg hdivw, ?_, hach0, le_trans hach_le hch⟩
    exact le_trans (pytrunc_le_int hdivw (div_le_self hcw0' hzf)) hcw

/-- Claim C1: for every frame, the crop rectangle emitted after the zoom
adjustment followed by the final bounds clamp (the clamp being the last
step) lies fully inside the source frame: `0 ≤ x`, `x + width ≤
input_width`, and symmetrically for `y`. -/
theorem crop_rect_within_bounds (iw ih ow oh : ℤ) (zf : ℚ) (px py : ℤ)
    (hiw : 0 < iw) (hih : 0 < ih) (how : 0 < ow) (hoh : 0 < oh) (hzf : 1 ≤ zf) :
    0 ≤ (frameCropRect iw ih ow oh zf px py).x ∧
    (frameCropRect iw ih ow oh zf px py).x +
      (frameCropRect iw ih ow oh zf px py).width ≤ iw ∧
    0 ≤ (frameCropRect iw ih ow oh zf px py).y ∧
    (frameCropRect iw ih ow oh zf px py).y +
      (frameCropRect iw ih ow oh zf px py).height ≤ ih := by
  obtain ⟨hcw0, hcw, hch0, hch, hK⟩ := initCropDims_bounds iw ih ow oh hiw hih how hoh
  obtain ⟨hw0, hw, hh0, hh⟩ := applyZoomDerive_dims iw ih ow oh zf px py
    (initCropDims iw ih ow oh).1 (initCropDims iw ih ow oh).2
    how hoh hzf hcw0 hch0 hcw hch hK
  exact clampCrop_bounds iw ih _ hw0 hw hh0 hh

/-- Witness for C1: a 1920x1080 source reframed to 1080x1920 at the
maximal zoom factor 1.1 from an arbitrary smoothed position. -/
theorem crop_rect_within_bounds_w :
    0 ≤ (frameCropRect 1920 1080 1080 1920 (11/10) 500 0).x ∧
    (frameCropRect 1920 1080 1080 1920 (11/10) 500 0).x +
      (frameCropRect 1920 1080 1080 1920 (11/10) 500 0).width ≤ 1920 ∧
    0 ≤ (frameCropRect 1920 1080 1080 1920 (11/10) 500 0).y ∧
    (frameCropRect 1920 1080 1080 1920 (11/10) 500 0).y +
      (frameCropRect 1920 1080 1080 1920 (11/10) 500 0).height ≤ 1080 :=
  crop_rect_within_bounds 1920 1080 1080 1920 (11/10) 500 0
    (by norm_num) (by norm_num) (by norm_num) (by norm_num) (by norm_num)
